import Mathlib

/-!
Verification development for the hfget transfer planning / execution engine.

The definitions below are a shallow embedding of the Go sources
(`downloader.go`, `options.go`, `progress.go`, `cmd/main.go`).  Pure
computations (path handling, plan classification, chunk arithmetic, the
throttle decision, the retry loop) are translated directly; filesystem and
network effects are abstracted into explicit oracle functions carried by an
environment record.  Go `string` values are modelled by Lean `String`, with
the handful of library operations (`strings.HasPrefix`, splitting on the
path separator, `strings.ReplaceAll` with a one-character pattern,
`strings.Join`) re-implemented structurally over the character list so that
they evaluate inside the kernel.  Go `int64` is modelled by `Int` (the
quantities involved — file sizes, byte counts, connection counts — never
approach the 64-bit boundary, so wrap-around is not modelled).
-/

namespace HFGet

/-! ### Go string primitives (structural models of the Go standard library) -/

/-- Model of Go `strings.HasPrefix s pre`: `pre` is a leading substring of `s`. -/
def strHasPfx (s pre : String) : Bool :=
  List.isPrefixOf pre.data s.data

/-- Join character lists with a single slash between them (helper for rendering paths). -/
def joinSlash : List (List Char) → List Char
  | [] => []
  | [c] => c
  | c :: rest => c ++ '/' :: joinSlash rest

/-- Split a character list on the slash separator, mirroring Go `strings.Split`. -/
def splitSlashAux : List Char → List Char → List String
  | [], cur => [String.mk cur.reverse]
  | c :: rest, cur =>
    if c = '/' then String.mk cur.reverse :: splitSlashAux rest []
    else splitSlashAux rest (c :: cur)

/-- Model of Go `strings.ReplaceAll s "/" "_"` (the only use in the source replaces
the one-character separator, so a character map is an exact model). -/
def replaceSlashUnderscore (s : String) : String :=
  String.mk (s.data.map fun c => if c = '/' then '_' else c)

/-- Model of Go `strings.Join elems sep`. -/
def goStringsJoin (elems : List String) (sep : String) : String :=
  match elems with
  | [] => ""
  | [a] => a
  | a :: rest => a ++ sep ++ goStringsJoin rest sep

/-- Naive substring search over character lists: does `sub` occur
contiguously in the second list? -/
def listHasInfix (sub : List Char) : List Char → Bool
  | [] => sub.isEmpty
  | c :: rest => List.isPrefixOf sub (c :: rest) || listHasInfix sub rest

/-- Model of Go `strings.Contains s sub` (used by `isTransientError`). -/
def strContains (s sub : String) : Bool :=
  listHasInfix sub.data s.data

/-! ### Lexical path model (Go `path/filepath` on slash-separated paths)

A path is an absolute flag plus a list of components.  `filepath.Clean`,
`filepath.Join` and the lexical part of `filepath.Abs` are purely textual,
and are modelled here exactly: cleaning drops empty and `.` components and
resolves `..` against a preceding component (leading `..` survives in a
relative path and is discarded at the root of an absolute one);
`Join(a, b)` concatenates and cleans; `Abs` of a relative path joins it to
the process working directory (which `Abs` obtains from the OS and which
the environment record supplies here). -/

/-- A slash-separated file path after parsing: absolute flag and components. -/
structure GoPath where
  isAbs : Bool
  comps : List String
deriving Repr, DecidableEq, Inhabited

/-- One step of lexical path cleaning, processing the next component against
the (reversed) stack of components already emitted. -/
def cleanStep (isAbs : Bool) (acc : List String) (c : String) : List String :=
  if c = "" ∨ c = "." then acc
  else if c = ".." then
    match acc with
    | [] => if isAbs then [] else [".."]
    | h :: t => if h = ".." then c :: h :: t else t
  else c :: acc

/-- Lexical cleaning of a component list, as performed by Go `filepath.Clean`. -/
def cleanComps (isAbs : Bool) (cs : List String) : List String :=
  (cs.foldl (cleanStep isAbs) []).reverse

/-- Clean a path (Go `filepath.Clean`). -/
def GoPath.clean (p : GoPath) : GoPath :=
  ⟨p.isAbs, cleanComps p.isAbs p.comps⟩

/-- Model of Go `filepath.Join a b`: concatenate the components and clean;
the result is absolute exactly when `a` is. -/
def joinPath (a b : GoPath) : GoPath :=
  GoPath.clean ⟨a.isAbs, a.comps ++ b.comps⟩

/-- Parse a path string into its absolute flag and non-empty components. -/
def parsePath (s : String) : GoPath :=
  let isAbs := match s.data with
    | c :: _ => c = '/'
    | [] => false
  ⟨isAbs, (splitSlashAux s.data []).filter (fun c => c ≠ "")⟩

/-- Render a cleaned path back to a string (Go textual form, slash-separated;
an empty relative path renders as the current directory). -/
def GoPath.render (p : GoPath) : String :=
  if p.isAbs then String.mk ('/' :: joinSlash (p.comps.map String.data))
  else match p.comps with
    | [] => "."
    | _ => String.mk (joinSlash (p.comps.map String.data))

/-- Specification-side notion used by the safety claims: `p` lies at or below
the root `r` when both have been resolved to absolute form and the root's
component list is a prefix of the path's component list.  This definition
follows the spec wording ("resolved absolute path is a descendant of the
resolved absolute localRoot"); it is deliberately distinct from the string
prefix test the source performs, so the two can be compared. -/
def specDescendant (root p : GoPath) : Bool :=
  root.isAbs = p.isAbs && List.isPrefixOf root.comps p.comps

/-! ### Data model (`api` types, `downloader.go`) -/

/-- LFS metadata of a manifest entry (`HFLFS`). -/
structure HFLFS where
  isLFS : Bool
  oid : String
  size : Int
deriving Repr, DecidableEq, Inhabited

/-- One manifest entry (`HFFile`): type tag, oid, size in bytes, repo-relative
path, and LFS metadata. -/
structure HFFile where
  type : String
  oid : String
  size : Int
  path : String
  lfs : HFLFS
deriving Repr, DecidableEq, Inhabited

/-- Remote repository metadata (`RepoInfo`), reduced to the fields the
planner reads: identity and the flat sibling list. -/
structure RepoInfo where
  id : String
  siblings : List HFFile
deriving Repr, DecidableEq, Inhabited

/-- A planned transfer with its reason (`FileDownload`). -/
structure FileDownload where
  file : HFFile
  reason : String
deriving Repr, DecidableEq, Inhabited

/-- A planned skip with its reason (`FileSkip`). -/
structure FileSkip where
  file : HFFile
  reason : String
deriving Repr, DecidableEq, Inhabited

/-- The download plan (`DownloadPlan`): partitioned decision lists plus byte
totals.  The `Repo` pointer is carried separately by the callers here. -/
structure DownloadPlan where
  filesToDownload : List FileDownload := []
  totalDownloadSize : Int := 0
  filesToSkip : List FileSkip := []
  totalSkipSize : Int := 0
deriving Repr, DecidableEq, Inhabited

/-- The configuration fields of `Downloader` consulted by the planning and
transfer logic (network handles and the logger are effectful and omitted). -/
structure Downloader where
  numConnections : Int := 5
  skipSHA : Bool := false
  forceRedownload : Bool := false
  useTreeStructure : Bool := false
  destinationBasePath : String := "."
  repoName : String := ""
  includePatterns : List String := []
  excludePatterns : List String := []
deriving Repr, DecidableEq, Inhabited

/-- Environment oracles for the effectful collaborators of the planner:
the process working directory consulted by `filepath.Abs`, the result of
`filepath.Match pattern name` (glob matching from the Go standard library,
whose error result the source discards), and the verdict of
`isLocalFileValid(fullPath, file)` (a filesystem stat/size/hash check),
returning the validity flag and the reason string. -/
structure PlanEnv where
  cwd : GoPath
  matchGlob : String → String → Bool
  localValid : String → HFFile → Bool × String

/-- Model of the lexical content of Go `filepath.Abs`: an absolute path is
cleaned, a relative path is joined to the working directory. -/
def absPath (env : PlanEnv) (p : GoPath) : GoPath :=
  if p.isAbs then p.clean else joinPath env.cwd p

/-! ### Plan builder (`downloader.go`) -/

/-- Model of `Downloader.shouldDownload`: exclude patterns win; with no
include patterns everything else passes; otherwise some include pattern
must match. -/
def shouldDownload (env : PlanEnv) (d : Downloader) (path : String) : Bool :=
  if d.excludePatterns.any (fun pat => env.matchGlob pat path) then false
  else if d.includePatterns.isEmpty then true
  else d.includePatterns.any (fun pat => env.matchGlob pat path)

/-- Model of `Downloader.getModelPath`: the destination base joined with the
repository folder name (the repo id, slash-flattened unless tree structure
is requested). -/
def getModelPath (d : Downloader) (repoID : String) : GoPath :=
  let folder := if d.useTreeStructure then repoID else replaceSlashUnderscore repoID
  joinPath (parsePath d.destinationBasePath) (parsePath folder)

/-- Model of `Downloader.flattenTree`: keep the entries not marked as directories. -/
def flattenTree (files : List HFFile) : List HFFile :=
  files.filter (fun f => f.type ≠ "directory")

/-- The security guard of `processFileForPlan` as written in the source:
`strings.HasPrefix(absFullPath, absModelPath)` on the rendered absolute
paths. -/
def pathGuardOK (env : PlanEnv) (modelPath : GoPath) (filePath : String) : Bool :=
  let fullPath := joinPath modelPath (parsePath filePath)
  let absModelPath := absPath env modelPath
  let absFullPath := absPath env fullPath
  strHasPfx absFullPath.render absModelPath.render

/-- Model of `Downloader.processFileForPlan`: filter check, security guard,
forced re-download, then local validity classification.  Entries rejected by
the filter or the guard leave the plan unchanged (the source only logs and
emits a progress event there). -/
def processFileForPlan (env : PlanEnv) (d : Downloader) (modelPath : GoPath)
    (file : HFFile) (plan : DownloadPlan) : DownloadPlan :=
  if ¬ shouldDownload env d file.path then plan
  else if ¬ pathGuardOK env modelPath file.path then plan
  else if d.forceRedownload then
    { plan with filesToDownload := plan.filesToDownload ++ [⟨file, "forced re-download"⟩] }
  else if (env.localValid (joinPath modelPath (parsePath file.path)).render file).1 then
    { plan with filesToSkip := plan.filesToSkip ++
        [⟨file, (env.localValid (joinPath modelPath (parsePath file.path)).render file).2⟩] }
  else
    { plan with filesToDownload := plan.filesToDownload ++
        [⟨file, (env.localValid (joinPath modelPath (parsePath file.path)).render file).2⟩] }

/-- The admission predicate implicit in `processFileForPlan`: an entry
reaches the classification stage exactly when it passes the include/exclude
filter and the security guard. -/
def entryAdmitted (env : PlanEnv) (d : Downloader) (modelPath : GoPath) (file : HFFile) : Bool :=
  shouldDownload env d file.path && pathGuardOK env modelPath file.path

/-- Model of `Downloader.BuildPlan`: process every non-directory entry in
manifest order, then accumulate the byte totals over the two lists.
Cancellation (the only error path of the source function) is not modelled;
the returned plan is the successful result. -/
def buildPlan (env : PlanEnv) (d : Downloader) (repoInfo : RepoInfo) : DownloadPlan :=
  let modelPath := getModelPath d repoInfo.id
  let plan := (flattenTree repoInfo.siblings).foldl
    (fun plan file => processFileForPlan env d modelPath file plan) {}
  { plan with
    totalDownloadSize := plan.totalDownloadSize + (plan.filesToDownload.map (fun f => f.file.size)).sum
    totalSkipSize := plan.totalSkipSize + (plan.filesToSkip.map (fun f => f.file.size)).sum }

/-! ### Transfer engine: stream selection and chunk arithmetic (`downloader.go`) -/

/-- The two transfer strategies of `downloadFile`. -/
inductive TransferMethod where
  | single
  | multi
deriving Repr, DecidableEq

/-- The branching condition of `downloadFile`: single-stream when the file is
not LFS or smaller than `numConnections * 1024 * 1024` bytes, multi-stream
otherwise. -/
def downloadFileMethod (d : Downloader) (file : HFFile) : TransferMethod :=
  if !file.lfs.isLFS || file.size < d.numConnections * 1024 * 1024 then .single
  else .multi

/-- The byte range of chunk `i` in `downloadMultiThreaded`, as the inclusive
pair `(start, end)` computed by the source: `chunkSize = size tdiv N`,
`start = i * chunkSize`, `end = start + chunkSize - 1` except that the last
chunk ends at `size - 1`.  `Int.tdiv` is truncated division, the behaviour
of Go `int64` division. -/
def chunkBounds (numConnections : Nat) (size : Int) (i : Nat) : Int × Int :=
  ((i : Int) * Int.tdiv size numConnections,
   if i = numConnections - 1 then size - 1
   else (i : Int) * Int.tdiv size numConnections + Int.tdiv size numConnections - 1)

/-- The bytes served for chunk `i` by a ranged GET over `content`: the slice
from `start` through `stop` inclusive. -/
def chunkSlice (numConnections : Nat) (content : List α) (i : Nat) : List α :=
  (content.drop (chunkBounds numConnections (content.length : Int) i).1.toNat).take
    ((chunkBounds numConnections (content.length : Int) i).2 + 1 -
      (chunkBounds numConnections (content.length : Int) i).1).toNat

/-- Model of `mergeFiles` applied to the chunk files that
`downloadMultiThreaded` produced: the temporary files are concatenated
strictly in chunk-index order. -/
def mergeChunks (numConnections : Nat) (chunks : Nat → List α) : List α :=
  ((List.range numConnections).map chunks).flatten

/-- The bytes the multi-stream path writes to the destination file for
`content`: each worker stores its range slice, and the merge concatenates
them in range order. -/
def multiStreamOutput (numConnections : Nat) (content : List α) : List α :=
  mergeChunks numConnections (chunkSlice numConnections content)

/-- The bytes the single-stream path writes: the body is streamed to the
destination unchanged. -/
def singleStreamOutput (content : List α) : List α :=
  content

/-! ### Transfer engine: plan execution (`ExecutePlan`) -/

/-- Oracles for the effectful steps of `ExecutePlan` on one file:
`download` is `downloadFile` (returning an error message, or the checksum
computed on the fly — the empty string on the multi-stream path), and
`verify` is the post-transfer `verifyLocalFile` pass (error message or
verification-method name). -/
structure ExecEnv where
  download : HFFile → Except String String
  verify : HFFile → Except String String

/-- The failure recorded by the `ExecutePlan` loop body for one file, `none`
when the file downloads and verifies cleanly.  The message strings mirror
the `fmt.Sprintf` formats of the source. -/
def fileError (d : Downloader) (env : ExecEnv) (file : HFFile) : Option String :=
  match env.download file with
  | .error e => some ("failed to download " ++ file.path ++ ": " ++ e)
  | .ok checksum =>
    if checksum ≠ "" then
      if ¬ d.skipSHA ∧ file.lfs.isLFS = true ∧ checksum ≠ file.lfs.oid then
        some ("validation failed for " ++ file.path ++ ": checksum mismatch: expected "
          ++ file.lfs.oid ++ ", got " ++ checksum)
      else none
    else
      match env.verify file with
      | .error e => some ("validation failed for " ++ file.path ++ ": " ++ e)
      | .ok _ => none

/-- The `downloadErrors` slice accumulated by the `ExecutePlan` loop: every
transfer-list entry is visited, failures are appended, and the loop
continues. -/
def executePlanErrors (d : Downloader) (env : ExecEnv) (plan : DownloadPlan) : List String :=
  plan.filesToDownload.foldl
    (fun errs fd =>
      match fileError d env fd.file with
      | some e => errs ++ [e]
      | none => errs) []

/-- Model of `ExecutePlan`'s result: `none` when no file failed, otherwise
the aggregate error text assembled by the source from the failure list. -/
def executePlan (d : Downloader) (env : ExecEnv) (plan : DownloadPlan) : Option String :=
  let errs := executePlanErrors d env plan
  if errs.isEmpty then none
  else some (toString errs.length ++ " file(s) failed to download or verify:\n- "
    ++ goStringsJoin errs "\n- ")

/-! ### Resilience layer: error taxonomy and the outer retry loop (`cmd/main.go`) -/

/-- The error shapes distinguished by `isTransientError`: the three sentinel
errors of the API layer, a `net.Error` with its `Timeout()`/`Temporary()`
flags, and a generic error carrying only its message. -/
inductive GoError where
  | auth
  | forbidden
  | notFound
  | net (timeout temporary : Bool)
  | generic (msg : String)
deriving Repr, DecidableEq

/-- Model of `isTransientError`: `nil` and the three sentinel errors are not
transient; a `net.Error` is transient when it reports timeout or temporary;
any other error is transient exactly when its message contains
"i/o timeout". -/
def isTransientError : Option GoError → Bool
  | none => false
  | some .auth => false
  | some .forbidden => false
  | some .notFound => false
  | some (.net t p) => t || p
  | some (.generic msg) => strContains msg "i/o timeout"

/-- The retry loop of `run`: starting at attempt index `i` with `rem`
iterations left, call the execute-plan oracle, stop when the result is `nil`
or not transient, otherwise sleep and try again.  Returns the last error,
the number of execute-plan calls made, and the number of fixed-interval
sleeps performed (the source sleeps once before every attempt but the
first). -/
def runRetryLoop (exec : Nat → Option GoError) : Nat → Nat → Option GoError × Nat × Nat
  | _, 0 => (none, 0, 0)
  | i, rem + 1 =>
    if (exec i).isNone || !isTransientError (exec i) then
      (exec i, 1, if 0 < i then 1 else 0)
    else
      match rem with
      | 0 => (exec i, 1, if 0 < i then 1 else 0)
      | r + 1 =>
        ((runRetryLoop exec (i + 1) (r + 1)).1,
         (runRetryLoop exec (i + 1) (r + 1)).2.1 + 1,
         (runRetryLoop exec (i + 1) (r + 1)).2.2 + (if 0 < i then 1 else 0))

/-- The whole retry phase of `run`: up to `maxRetries` attempts starting
from attempt 0. -/
def runRetries (exec : Nat → Option GoError) (maxRetries : Nat) : Option GoError × Nat × Nat :=
  runRetryLoop exec 0 maxRetries

/-! ### Progress reporter (`sendProgress`, `progressWriter`) -/

/-- The progress states of the authoritative `ProgressState` enumeration
(the five-state version the downloader references). -/
inductive ProgressState where
  | downloading
  | verifying
  | complete
  | verified
  | skipped
deriving Repr, DecidableEq

/-- One progress event for a single file: state, cumulative byte count,
total byte count, and the (monotone, millisecond) time it reaches the
reporter. -/
structure PEvent where
  state : ProgressState
  current : Int
  total : Int
  now : Nat
deriving Repr, DecidableEq

/-- The throttle window of `sendProgress`, in milliseconds. -/
def throttleIntervalMs : Nat := 100

/-- The throttle decision of `sendProgress` for one file: `last` is the
recorded last-update time (`none` models the zero `time.Time`).  The event
is admitted unless it is neither a final state nor a 100%-download event,
a previous update exists, and less than the throttle interval has elapsed
since it. -/
def sendProgressAdmits (last : Option Nat) (e : PEvent) : Bool :=
  match last with
  | none => true
  | some t =>
    if ¬ (e.state = ProgressState.complete ∨ e.state = ProgressState.verified) ∧
       ¬ (e.state = ProgressState.downloading ∧ e.current = e.total) ∧
       e.now - t < throttleIntervalMs
    then false
    else true

/-- Run the reporter state machine of `sendProgress` over a sequence of
events for one file (with the external consumer ready, so an admitted event
is a sent event): returns the admitted events and the final last-update
time. -/
def runReporter (last : Option Nat) : List PEvent → List PEvent × Option Nat
  | [] => ([], last)
  | e :: rest =>
    if sendProgressAdmits last e then
      (e :: (runReporter (some e.now) rest).1, (runReporter (some e.now) rest).2)
    else
      runReporter last rest

/-- The cumulative totals reported by `progressWriter.Write` for one file:
each successful write of `n` bytes adds `n` to the shared counter and, when
`n > 0`, reports the counter's new value.  `acc` is the counter's current
value; the writes list is the interleaved sequence of all workers' write
sizes in the order their atomic adds land. -/
def cumTotals : List Nat → Nat → List Nat
  | [], _ => []
  | n :: rest, acc =>
    if 0 < n then (acc + n) :: cumTotals rest (acc + n)
    else cumTotals rest acc

/-! ### Concrete instances used by witnesses and counterexamples -/

/-- A planning environment with working directory `/cwd`, no glob matches,
and a local state in which every file is missing. -/
def planEnvEx : PlanEnv :=
  { cwd := ⟨true, ["cwd"]⟩
    matchGlob := fun _ _ => false
    localValid := fun _ _ => (false, "missing") }

/-- A downloader with default options for repository `m`. -/
def dEx : Downloader := { repoName := "m" }

/-- A downloader for repository `m` with force-redownload enabled. -/
def dForce : Downloader := { repoName := "m", forceRedownload := true }

/-- A manifest entry whose relative path climbs out of the destination root. -/
def escFile : HFFile :=
  { type := "file", oid := "", size := 7, path := "../escape.txt"
    lfs := { isLFS := false, oid := "", size := 0 } }

/-- A repository whose only entry escapes the destination root. -/
def repoEsc : RepoInfo := { id := "m", siblings := [escFile] }

/-- A manifest entry escaping into the sibling directory `m2`, whose absolute
path has the destination root `/cwd/m` as a string prefix. -/
def sibFile : HFFile :=
  { type := "file", oid := "", size := 5, path := "../m2/evil.txt"
    lfs := { isLFS := false, oid := "", size := 0 } }

/-- A repository whose only entry escapes into the sibling directory `m2`. -/
def repoSib : RepoInfo := { id := "m", siblings := [sibFile] }

/-- An ordinary manifest entry. -/
def plainFile : HFFile :=
  { type := "file", oid := "", size := 3, path := "a.txt"
    lfs := { isLFS := false, oid := "", size := 0 } }

/-- An execution environment in which every download succeeds with an
on-the-fly checksum equal to the empty string and post-verification
succeeds by size. -/
def execEnvOK : ExecEnv :=
  { download := fun _ => .ok "", verify := fun _ => .ok "File Size" }

/-- A plan containing one file to download. -/
def planOneFile : DownloadPlan :=
  { filesToDownload := [⟨plainFile, "missing"⟩] }

/-- A terminal progress event at time zero. -/
def evDone : PEvent := { state := .complete, current := 5, total := 5, now := 0 }

/-! ## Theorems -/

/-- Processing one file never touches the byte totals of the plan; the
totals are accumulated afterwards by `buildPlan`. -/
theorem processFileForPlan_totals (env : PlanEnv) (d : Downloader) (mp : GoPath)
    (file : HFFile) (plan : DownloadPlan) :
    (processFileForPlan env d mp file plan).totalDownloadSize = plan.totalDownloadSize ∧
    (processFileForPlan env d mp file plan).totalSkipSize = plan.totalSkipSize := by
  unfold processFileForPlan
  split_ifs <;> exact ⟨rfl, rfl⟩

/-- Folding the planner over a file list never touches the byte totals. -/
theorem foldl_process_totals (env : PlanEnv) (d : Downloader) (mp : GoPath) :
    ∀ (files : List HFFile) (plan : DownloadPlan),
    ((files.foldl (fun pl f => processFileForPlan env d mp f pl) plan).totalDownloadSize
        = plan.totalDownloadSize) ∧
    ((files.foldl (fun pl f => processFileForPlan env d mp f pl) plan).totalSkipSize
        = plan.totalSkipSize) := by
  intro files
  induction files with
  | nil => intro plan; exact ⟨rfl, rfl⟩
  | cons f rest ih =>
    intro plan
    have h := processFileForPlan_totals env d mp f plan
    have h2 := ih (processFileForPlan env d mp f plan)
    exact ⟨h2.1.trans h.1, h2.2.trans h.2⟩

/-- Appending a singleton to the first of two concatenated lists permutes to
appending it after both. -/
theorem append_singleton_perm (A B : List α) (x : α) :
    ((A ++ [x]) ++ B).Perm ((A ++ B) ++ [x]) := by
  rw [List.append_assoc, List.append_assoc]
  exact List.Perm.append_left A List.perm_append_comm

/-- Processing one file appends exactly one decision across the two lists
when the entry is admitted by the filter and the guard, and none otherwise. -/
theorem processFileForPlan_files (env : PlanEnv) (d : Downloader) (mp : GoPath)
    (file : HFFile) (plan : DownloadPlan) :
    ((processFileForPlan env d mp file plan).filesToDownload.map (fun fd => fd.file) ++
     (processFileForPlan env d mp file plan).filesToSkip.map (fun fs => fs.file)).Perm
      ((plan.filesToDownload.map (fun fd => fd.file) ++
        plan.filesToSkip.map (fun fs => fs.file)) ++
       (if entryAdmitted env d mp file then [file] else [])) := by
  by_cases h1 : shouldDownload env d file.path = true
  · by_cases h2 : pathGuardOK env mp file.path = true
    · have hA : entryAdmitted env d mp file = true := by
        simp [entryAdmitted, h1, h2]
      rw [if_pos hA]
      unfold processFileForPlan
      rw [if_neg (by simp [h1]), if_neg (by simp [h2])]
      split_ifs with h3 h4
      · simpa using append_singleton_perm (plan.filesToDownload.map (fun fd => fd.file))
          (plan.filesToSkip.map (fun fs => fs.file)) file
      · simp only [DownloadPlan.filesToSkip, DownloadPlan.filesToDownload,
          List.map_append, List.map_cons, List.map_nil]
        rw [← List.append_assoc]
      · simpa using append_singleton_perm (plan.filesToDownload.map (fun fd => fd.file))
          (plan.filesToSkip.map (fun fs => fs.file)) file
    · have hA : entryAdmitted env d mp file = false := by
        simp only [Bool.not_eq_true] at h2
        simp [entryAdmitted, h2]
      rw [hA]
      unfold processFileForPlan
      rw [if_neg (by simp [h1]), if_pos (by simp [Bool.not_eq_true] at h2 ⊢; simp [h2])]
      simp
  · have hA : entryAdmitted env d mp file = false := by
      simp only [Bool.not_eq_true] at h1
      simp [entryAdmitted, h1]
    rw [hA]
    unfold processFileForPlan
    rw [if_pos (by simpa using h1)]
    simp

/-- Folding the planner over a file list appends, across the two decision
lists, exactly the admitted entries (as a multiset). -/
theorem foldl_process_files (env : PlanEnv) (d : Downloader) (mp : GoPath) :
    ∀ (files : List HFFile) (plan : DownloadPlan),
    ((files.foldl (fun pl f => processFileForPlan env d mp f pl) plan).filesToDownload.map
        (fun fd => fd.file) ++
     (files.foldl (fun pl f => processFileForPlan env d mp f pl) plan).filesToSkip.map
        (fun fs => fs.file)).Perm
      ((plan.filesToDownload.map (fun fd => fd.file) ++
        plan.filesToSkip.map (fun fs => fs.file)) ++
       files.filter (fun f => entryAdmitted env d mp f)) := by
  intro files
  induction files with
  | nil => intro plan; simp
  | cons f rest ih =>
    intro plan
    have step := processFileForPlan_files env d mp f plan
    have tail := ih (processFileForPlan env d mp f plan)
    refine tail.trans ?_
    refine (List.Perm.append_right _ step).trans ?_
    by_cases hadm : entryAdmitted env d mp f = true
    · rw [if_pos hadm, List.filter_cons_of_pos hadm, List.append_assoc,
        List.singleton_append]
    · rw [if_neg hadm, List.filter_cons_of_neg (by simpa using hadm), List.append_nil]

/-- C1 (corrected). After `BuildPlan`, each non-directory manifest entry
that passes the include/exclude filter and the path-containment guard
appears in exactly one of the plan's skip list or transfer list, counted
with multiplicity (no duplicates); an entry rejected by the filter or the
guard appears in neither list (its count on both sides is zero because the
filtered manifest omits it). -/
theorem buildPlan_partition_admitted (env : PlanEnv) (d : Downloader) (r : RepoInfo)
    (f : HFFile) :
    ((buildPlan env d r).filesToDownload.map (fun fd => fd.file)).count f +
      ((buildPlan env d r).filesToSkip.map (fun fs => fs.file)).count f =
    ((flattenTree r.siblings).filter
        (fun x => entryAdmitted env d (getModelPath d r.id) x)).count f := by
  have perm := foldl_process_files env d (getModelPath d r.id) (flattenTree r.siblings) {}
  have hdl : (buildPlan env d r).filesToDownload =
      ((flattenTree r.siblings).foldl
        (fun pl x => processFileForPlan env d (getModelPath d r.id) x pl)
        {}).filesToDownload := rfl
  have hsk : (buildPlan env d r).filesToSkip =
      ((flattenTree r.siblings).foldl
        (fun pl x => processFileForPlan env d (getModelPath d r.id) x pl)
        {}).filesToSkip := rfl
  rw [hdl, hsk, ← List.count_append]
  have := perm.count_eq f
  simpa using this

/-- C1 (counterexample to the original claim). A manifest entry whose path
escapes the destination root is rejected by the guard and lands in neither
the transfer list nor the skip list, though it is a non-directory manifest
entry. -/
theorem buildPlan_omits_rejected_entry :
    flattenTree repoEsc.siblings = [escFile] ∧
    (buildPlan planEnvEx dEx repoEsc).filesToDownload = [] ∧
    (buildPlan planEnvEx dEx repoEsc).filesToSkip = [] := by decide

/-- C2 (code bug). The security guard compares rendered absolute paths with
a bare string-prefix test, so the entry `../m2/evil.txt` of repository `m`
(destination root `/cwd/m`) is admitted to the transfer list — its absolute
path `/cwd/m2/evil.txt` has `/cwd/m` as a string prefix — although it is
not a descendant of the destination root. -/
theorem pathGuard_accepts_sibling_escape :
    entryAdmitted planEnvEx dEx (getModelPath dEx "m") sibFile = true ∧
    (buildPlan planEnvEx dEx repoSib).filesToDownload.map (fun fd => fd.file.path) =
      ["../m2/evil.txt"] ∧
    specDescendant (absPath planEnvEx (getModelPath dEx "m"))
      (absPath planEnvEx (joinPath (getModelPath dEx "m") (parsePath sibFile.path))) =
      false := by decide

/-- C5 (confirmed). `downloadFile` chooses the single-stream path exactly
when the file is not a large object or its size is strictly below
`numConnections` MiB; otherwise it chooses the multi-stream path. -/
theorem downloadFile_single_stream_iff (d : Downloader) (file : HFFile) :
    downloadFileMethod d file = TransferMethod.single ↔
      (file.lfs.isLFS = false ∨ file.size < d.numConnections * 1048576) := by
  have hnum : d.numConnections * 1048576 = d.numConnections * 1024 * 1024 := by ring
  rw [hnum]
  unfold downloadFileMethod
  split_ifs with h
  · simp only [true_iff]
    rcases (Bool.or_eq_true _ _).mp h with h' | h'
    · exact Or.inl (by simpa using h')
    · exact Or.inr (by simpa using h')
  · simp only [Bool.or_eq_true, Bool.not_eq_true', decide_eq_true_eq, not_or] at h
    constructor
    · intro hc; exact absurd hc (by decide)
    · intro hc
      rcases hc with h' | h'
      · exact absurd h' (by simp [h.1])
      · exact absurd h' h.2

/-- C6 (confirmed). The plan's `TotalDownloadSize` is the sum of the sizes
of the transfer-list entries and `TotalSkipSize` is the sum of the sizes of
the skip-list entries. -/
theorem buildPlan_totals_are_sums (env : PlanEnv) (d : Downloader) (r : RepoInfo) :
    (buildPlan env d r).totalDownloadSize =
      ((buildPlan env d r).filesToDownload.map (fun fd => fd.file.size)).sum ∧
    (buildPlan env d r).totalSkipSize =
      ((buildPlan env d r).filesToSkip.map (fun fs => fs.file.size)).sum := by
  have h := foldl_process_totals env d (getModelPath d r.id) (flattenTree r.siblings) {}
  unfold buildPlan
  constructor
  · simp only []
    rw [h.1]
    simp
  · simp only []
    rw [h.2]
    simp

/-- C10 (confirmed). The include/exclude filter and the path guard take
precedence over force-redownload: an entry failing either check leaves the
plan unchanged even when force-redownload is set, while an entry passing
both checks with force-redownload set is appended to the transfer list as a
forced re-download. -/
theorem filters_and_guard_precede_force (env : PlanEnv) (d : Downloader) (mp : GoPath)
    (file : HFFile) (plan : DownloadPlan) :
    ((shouldDownload env d file.path = false ∨ pathGuardOK env mp file.path = false) →
        processFileForPlan env d mp file plan = plan) ∧
    (shouldDownload env d file.path = true → pathGuardOK env mp file.path = true →
        d.forceRedownload = true →
        processFileForPlan env d mp file plan =
          { plan with filesToDownload :=
              plan.filesToDownload ++ [⟨file, "forced re-download"⟩] }) := by
  constructor
  · intro h
    unfold processFileForPlan
    rcases h with h | h
    · rw [if_pos (by simp [h])]
    · by_cases hs : shouldDownload env d file.path = true
      · rw [if_neg (by simp [hs]), if_pos (by simp [h])]
      · rw [if_pos (by simpa using hs)]
  · intro hs hg hf
    unfold processFileForPlan
    rw [if_neg (by simp [hs]), if_neg (by simp [hg]), if_pos hf]

/-- Closed instance of C10: with force-redownload set, the guard-rejected
entry `../escape.txt` still leaves the empty plan empty. -/
theorem filters_precede_force_witness :
    processFileForPlan planEnvEx dForce (getModelPath dForce "m") escFile {} = {} :=
  (filters_and_guard_precede_force planEnvEx dForce (getModelPath dForce "m") escFile {}).1
    (Or.inr (by decide))

/-- For a chunk index below the last one, the served slice is the `chunkSize`
bytes starting at `i * chunkSize`. -/
theorem chunkSlice_of_lt (N : Nat) (content : List α) (i : Nat) (h : i < N - 1) :
    chunkSlice N content i =
      (content.drop (i * (content.length / N))).take (content.length / N) := by
  have hne : i ≠ N - 1 := fun he => absurd (he ▸ h) (lt_irrefl _)
  unfold chunkSlice chunkBounds
  rw [if_neg hne]
  have hc : Int.tdiv (content.length : Int) (N : Int) =
      ((content.length / N : Nat) : Int) := rfl
  rw [hc]
  have h1 : ((i : Int) * ((content.length / N : Nat) : Int)) =
      ((i * (content.length / N) : Nat) : Int) := by push_cast; ring
  have h2 : ((i : Int) * ((content.length / N : Nat) : Int) +
        ((content.length / N : Nat) : Int) - 1 + 1 -
      (i : Int) * ((content.length / N : Nat) : Int)) =
      ((content.length / N : Nat) : Int) := by ring
  rw [h2, Int.toNat_natCast, h1, Int.toNat_natCast]

/-- The last chunk's served slice is the whole remainder of the content. -/
theorem chunkSlice_last (N : Nat) (content : List α) :
    chunkSlice N content (N - 1) =
      content.drop ((N - 1) * (content.length / N)) := by
  unfold chunkSlice chunkBounds
  rw [if_pos rfl]
  have hc : Int.tdiv (content.length : Int) (N : Int) =
      ((content.length / N : Nat) : Int) := rfl
  rw [hc]
  have h1 : (((N - 1 : Nat) : Int) * ((content.length / N : Nat) : Int)) =
      (((N - 1) * (content.length / N) : Nat) : Int) := by push_cast; ring
  rw [h1, Int.toNat_natCast]
  have h2 : ((content.length : Int) - 1 + 1 -
      (((N - 1) * (content.length / N) : Nat) : Int)) =
      ((content.length : Int) - (((N - 1) * (content.length / N) : Nat) : Int)) := by ring
  rw [h2]
  have hle : (N - 1) * (content.length / N) ≤ content.length := by
    calc (N - 1) * (content.length / N) ≤ N * (content.length / N) :=
          Nat.mul_le_mul_right _ (Nat.sub_le _ _)
      _ ≤ content.length := by
          rw [Nat.mul_comm]
          exact Nat.div_mul_le_self _ _
  rw [show ((content.length : Int) - (((N - 1) * (content.length / N) : Nat) : Int))
      = ((content.length - (N - 1) * (content.length / N) : Nat) : Int) by
        push_cast [hle]; ring]
  rw [Int.toNat_natCast]
  have hlen : (content.drop ((N - 1) * (content.length / N))).length =
      content.length - (N - 1) * (content.length / N) := List.length_drop _ _
  rw [← hlen, List.take_length]

/-- Concatenating the first `k` regular chunk slices yields the first
`k * chunkSize` bytes of the content. -/
theorem flatten_chunk_take (content : List α) (c : Nat) :
    ∀ k, ((List.range k).map (fun i => (content.drop (i * c)).take c)).flatten =
      content.take (k * c) := by
  intro k
  induction k with
  | zero => simp
  | succ k ih =>
    rw [List.range_succ, List.map_append, List.flatten_append]
    simp only [List.map_cons, List.map_nil, List.flatten_cons, List.flatten_nil,
      List.append_nil]
    rw [ih, Nat.succ_mul, List.take_add]

/-- C3 (confirmed). The multi-stream byte ranges start at offset zero, are
contiguous (each chunk begins right after its predecessor ends), the last
range ends at the final byte, and concatenating the chunk files strictly in
range order reproduces the content — the bytes written equal those a
single-stream transfer of the same content would write. -/
theorem chunk_ranges_cover_merge_roundtrip (N : Nat) (hN : 1 ≤ N) (content : List α) :
    (chunkBounds N (content.length : Int) 0).1 = 0 ∧
    (∀ i, i + 1 < N →
        (chunkBounds N (content.length : Int) (i + 1)).1 =
          (chunkBounds N (content.length : Int) i).2 + 1) ∧
    (chunkBounds N (content.length : Int) (N - 1)).2 = (content.length : Int) - 1 ∧
    multiStreamOutput N content = singleStreamOutput content := by
  refine ⟨?_, ?_, ?_, ?_⟩
  · simp [chunkBounds]
  · intro i hi
    have hne : i ≠ N - 1 := by omega
    unfold chunkBounds
    rw [if_neg hne]
    push_cast
    ring
  · unfold chunkBounds
    rw [if_pos rfl]
  · obtain ⟨m, rfl⟩ : ∃ m, N = m + 1 := ⟨N - 1, (Nat.succ_pred_eq_of_pos hN).symm⟩
    unfold multiStreamOutput mergeChunks singleStreamOutput
    rw [List.range_succ, List.map_append, List.flatten_append]
    have hmap : (List.range m).map (fun i => chunkSlice (m + 1) content i) =
        (List.range m).map
          (fun i => (content.drop (i * (content.length / (m + 1)))).take
            (content.length / (m + 1))) := by
      refine List.map_congr_left ?_
      intro i hi
      exact chunkSlice_of_lt (m + 1) content i
        (by simpa using List.mem_range.mp hi)
    rw [hmap, flatten_chunk_take]
    have hlast : chunkSlice (m + 1) content m = content.drop (m * (content.length / (m + 1))) := by
      simpa using chunkSlice_last (m + 1) content
    simp only [List.map_cons, List.map_nil, List.flatten_cons, List.flatten_nil,
      List.append_nil, hlast]
    exact List.take_append_drop _ _

/-- Closed instance of C3: splitting a three-byte file across two
connections and merging the chunks reproduces the single-stream bytes. -/
theorem chunk_roundtrip_witness :
    1 ≤ 2 ∧ multiStreamOutput 2 [10, 20, 30] = singleStreamOutput [10, 20, 30] :=
  ⟨by decide, (chunk_ranges_cover_merge_roundtrip 2 (by decide) [10, 20, 30]).2.2.2⟩

/-- The failure accumulator of the `ExecutePlan` loop collects exactly the
failures of the visited entries, in order, onto the initial accumulator. -/
theorem foldl_errs_eq (d : Downloader) (env : ExecEnv) :
    ∀ (l : List FileDownload) (acc : List String),
    l.foldl (fun errs fd =>
        match fileError d env fd.file with
        | some e => errs ++ [e]
        | none => errs) acc =
      acc ++ l.filterMap (fun fd => fileError d env fd.file) := by
  intro l
  induction l with
  | nil => intro acc; simp
  | cons fd rest ih =>
    intro acc
    simp only [List.foldl_cons, List.filterMap_cons]
    cases hfe : fileError d env fd.file with
    | none =>
      dsimp only
      rw [ih]
    | some e =>
      dsimp only
      rw [ih, List.append_assoc, List.singleton_append]

/-- The error list of `ExecutePlan` is the image of the per-file failures
over the whole transfer list. -/
theorem executePlanErrors_eq_filterMap (d : Downloader) (env : ExecEnv)
    (plan : DownloadPlan) :
    executePlanErrors d env plan =
      plan.filesToDownload.filterMap (fun fd => fileError d env fd.file) := by
  unfold executePlanErrors
  rw [foldl_errs_eq]
  simp

/-- Every member of a Go-style joined string occurs in it contiguously. -/
theorem mem_goStringsJoin (sep : String) :
    ∀ (l : List String) (e : String), e ∈ l →
    ∃ pre suf, goStringsJoin l sep = pre ++ e ++ suf := by
  intro l
  induction l with
  | nil => intro e he; cases he
  | cons a rest ih =>
    intro e he
    cases rest with
    | nil =>
      have : e = a := by simpa using he
      subst this
      exact ⟨"", "", by simp [goStringsJoin, String.empty_append, String.append_empty]⟩
    | cons b t =>
      rcases List.mem_cons.mp he with he | he
      · subst he
        refine ⟨"", sep ++ goStringsJoin (b :: t) sep, ?_⟩
        simp only [goStringsJoin, String.empty_append, String.append_assoc]
      · obtain ⟨pre, suf, hj⟩ := ih e he
        refine ⟨a ++ sep ++ pre, suf, ?_⟩
        simp only [goStringsJoin]
        rw [hj]
        simp only [String.append_assoc]

/-- Every failure message produced by the `ExecutePlan` loop body embeds the
failing file's path. -/
theorem fileError_mentions_path (d : Downloader) (env : ExecEnv) (file : HFFile)
    (e : String) (h : fileError d env file = some e) :
    ∃ pre suf, e = pre ++ file.path ++ suf := by
  unfold fileError at h
  cases hd : env.download file with
  | error msg =>
    rw [hd] at h
    simp only [Option.some.injEq] at h
    refine ⟨"failed to download ", ": " ++ msg, ?_⟩
    rw [← h]
    simp only [String.append_assoc]
  | ok c =>
    rw [hd] at h
    dsimp only at h
    by_cases hc : c ≠ ""
    · rw [if_pos hc] at h
      by_cases hm : ¬ d.skipSHA = true ∧ file.lfs.isLFS = true ∧ c ≠ file.lfs.oid
      · rw [if_pos hm] at h
        simp only [Option.some.injEq] at h
        refine ⟨"validation failed for ",
          ": checksum mismatch: expected " ++ file.lfs.oid ++ ", got " ++ c, ?_⟩
        rw [← h]
        simp only [String.append_assoc]
      · rw [if_neg hm] at h
        exact absurd h (by simp)
    · rw [if_neg hc] at h
      cases hv : env.verify file with
      | error msg =>
        rw [hv] at h
        simp only [Option.some.injEq] at h
        refine ⟨"validation failed for ", ": " ++ msg, ?_⟩
        rw [← h]
        simp only [String.append_assoc]
      | ok m =>
        rw [hv] at h
        exact absurd h (by simp)

/-- C4 (confirmed). `ExecutePlan` visits every transfer-list entry even when
earlier entries fail (the error list is the per-file failure image of the
whole list), returns `nil` exactly when no file failed, and on failure
returns one aggregate error in which every failed file's message — and so
its path — occurs. -/
theorem executePlan_continue_on_error (d : Downloader) (env : ExecEnv)
    (plan : DownloadPlan) :
    (executePlanErrors d env plan =
        plan.filesToDownload.filterMap (fun fd => fileError d env fd.file)) ∧
    (executePlan d env plan = none ↔
        ∀ fd ∈ plan.filesToDownload, fileError d env fd.file = none) ∧
    (∀ fd ∈ plan.filesToDownload, ∀ e, fileError d env fd.file = some e →
        e ∈ executePlanErrors d env plan ∧
        ∀ msg, executePlan d env plan = some msg →
          ∃ pre suf, msg = pre ++ fd.file.path ++ suf) := by
  have herrs := executePlanErrors_eq_filterMap d env plan
  refine ⟨herrs, ?_, ?_⟩
  · unfold executePlan
    by_cases hemp : (executePlanErrors d env plan).isEmpty
    · rw [if_pos hemp]
      simp only [true_iff]
      rw [herrs, List.isEmpty_iff] at hemp
      exact fun fd hfd => (List.filterMap_eq_nil_iff.mp hemp) fd hfd
    · rw [if_neg hemp]
      simp only [false_iff, reduceCtorEq, not_forall]
      rw [herrs, List.isEmpty_iff] at hemp
      have hne := hemp
      rcases List.exists_mem_of_ne_nil _ hne with ⟨e, he⟩
      rcases List.mem_filterMap.mp he with ⟨fd, hfd, hfe⟩
      exact ⟨fd, hfd, by simp [hfe]⟩
  · intro fd hfd e hfe
    have hmem : e ∈ executePlanErrors d env plan := by
      rw [herrs]
      exact List.mem_filterMap.mpr ⟨fd, hfd, hfe⟩
    refine ⟨hmem, ?_⟩
    intro msg hmsg
    unfold executePlan at hmsg
    by_cases hemp : (executePlanErrors d env plan).isEmpty
    · rw [if_pos hemp] at hmsg
      cases hmsg
    · rw [if_neg hemp] at hmsg
      simp only [Option.some.injEq] at hmsg
      obtain ⟨pre, suf, hj⟩ := mem_goStringsJoin "\n- " _ e hmem
      obtain ⟨pe, se, he⟩ := fileError_mentions_path d env fd.file e hfe
      refine ⟨toString (executePlanErrors d env plan).length ++
        " file(s) failed to download or verify:\n- " ++ pre ++ pe, se ++ suf, ?_⟩
      rw [← hmsg, hj, he]
      simp only [String.append_assoc]

/-- Closed instance of C4: a one-file plan in which the download and the
verification succeed executes with a `nil` aggregate error. -/
theorem executePlan_aggregate_witness :
    executePlan dEx execEnvOK planOneFile = none :=
  (executePlan_continue_on_error dEx execEnvOK planOneFile).2.1.mpr (by decide)

/-- A transient error is not `nil`. -/
theorem isNone_false_of_transient (e : Option GoError)
    (h : isTransientError e = true) : e.isNone = false := by
  cases e with
  | none => simp [isTransientError] at h
  | some ge => rfl

/-- The retry loop executes at most `rem` attempts. -/
theorem runRetryLoop_attempts_le (exec : Nat → Option GoError) :
    ∀ (rem i : Nat), (runRetryLoop exec i rem).2.1 ≤ rem := by
  intro rem
  induction rem with
  | zero => intro i; simp [runRetryLoop]
  | succ r ih =>
    intro i
    unfold runRetryLoop
    by_cases h : ((exec i).isNone || !isTransientError (exec i)) = true
    · rw [if_pos h]
      simp
    · rw [if_neg h]
      cases r with
      | zero => simp
      | succ r2 =>
        have := ih (i + 1)
        simpa using Nat.succ_le_succ this

/-- The retry loop makes at least one attempt when given at least one. -/
theorem runRetryLoop_attempts_pos (exec : Nat → Option GoError) (i rem : Nat)
    (hrem : 1 ≤ rem) : 1 ≤ (runRetryLoop exec i rem).2.1 := by
  obtain ⟨r, rfl⟩ : ∃ r, rem = r + 1 := ⟨rem - 1, by omega⟩
  unfold runRetryLoop
  by_cases h : ((exec i).isNone || !isTransientError (exec i)) = true
  · rw [if_pos h]
  · rw [if_neg h]
    cases r with
    | zero => simp
    | succ r2 => simp

/-- When the first attempt's result is `nil` or not transient, the loop
stops immediately after that one attempt. -/
theorem runRetryLoop_stop (exec : Nat → Option GoError) (i rem : Nat)
    (hrem : 1 ≤ rem) (h : isTransientError (exec i) = false) :
    runRetryLoop exec i rem = (exec i, 1, if 0 < i then 1 else 0) := by
  obtain ⟨r, rfl⟩ : ∃ r, rem = r + 1 := ⟨rem - 1, by omega⟩
  unfold runRetryLoop
  rw [if_pos (by simp [h])]

/-- When every attempt's result is transient, the loop uses all its
attempts. -/
theorem runRetryLoop_all_transient (exec : Nat → Option GoError) :
    ∀ (rem i : Nat), (∀ j, isTransientError (exec (i + j)) = true) →
    (runRetryLoop exec i rem).2.1 = rem := by
  intro rem
  induction rem with
  | zero => intro i _; simp [runRetryLoop]
  | succ r ih =>
    intro i h
    have h0 : isTransientError (exec i) = true := by simpa using h 0
    have hn : (exec i).isNone = false := isNone_false_of_transient _ h0
    unfold runRetryLoop
    rw [if_neg (by simp [h0, hn])]
    cases r with
    | zero => rfl
    | succ r2 =>
      have hshift : ∀ j, isTransientError (exec (i + 1 + j)) = true := by
        intro j
        have := h (j + 1)
        have heq : i + (j + 1) = i + 1 + j := by omega
        rwa [heq] at this
      simp [ih (i + 1) hshift]

/-- Every attempt before the final one returned a transient error: the loop
never retries after a non-transient (in particular fatal) result. -/
theorem runRetryLoop_prefix_transient (exec : Nat → Option GoError) :
    ∀ (rem i j : Nat), j + 1 < (runRetryLoop exec i rem).2.1 →
    isTransientError (exec (i + j)) = true := by
  intro rem
  induction rem with
  | zero => intro i j h; simp [runRetryLoop] at h
  | succ r ih =>
    intro i j h
    unfold runRetryLoop at h
    by_cases hc : ((exec i).isNone || !isTransientError (exec i)) = true
    · rw [if_pos hc] at h
      simp at h
    · rw [if_neg hc] at h
      have htrans : isTransientError (exec i) = true := by
        by_contra hf
        apply hc
        simp only [Bool.not_eq_true] at hf
        simp [hf]
      cases r with
      | zero => simp at h
      | succ r2 =>
        simp only at h
        cases j with
        | zero => simpa using htrans
        | succ j2 =>
          have hlt : j2 + 1 < (runRetryLoop exec (i + 1) (r2 + 1)).2.1 := by omega
          have := ih (i + 1) j2 hlt
          have heq : i + 1 + j2 = i + (j2 + 1) := by omega
          rwa [heq] at this

/-- Starting from a positive attempt index, every attempt is preceded by a
sleep: the sleep count equals the attempt count. -/
theorem runRetryLoop_sleeps_pos (exec : Nat → Option GoError) :
    ∀ (rem i : Nat), 0 < i →
    (runRetryLoop exec i rem).2.2 = (runRetryLoop exec i rem).2.1 := by
  intro rem
  induction rem with
  | zero => intro i _; simp [runRetryLoop]
  | succ r ih =>
    intro i hi
    unfold runRetryLoop
    by_cases h : ((exec i).isNone || !isTransientError (exec i)) = true
    · rw [if_pos h]
      simp [hi]
    · rw [if_neg h]
      cases r with
      | zero => simp [hi]
      | succ r2 =>
        have := ih (i + 1) (by omega)
        simp [this, hi]

/-- From attempt index zero, the sleeps are exactly the attempts after the
first: one fixed-interval delay between consecutive attempts. -/
theorem runRetries_sleeps (exec : Nat → Option GoError) (maxRetries : Nat) :
    (runRetries exec maxRetries).2.2 = (runRetries exec maxRetries).2.1 - 1 := by
  unfold runRetries
  cases maxRetries with
  | zero => simp [runRetryLoop]
  | succ r =>
    unfold runRetryLoop
    by_cases h : ((exec 0).isNone || !isTransientError (exec 0)) = true
    · rw [if_pos h]
      simp
    · rw [if_neg h]
      cases r with
      | zero => simp
      | succ r2 =>
        have := runRetryLoop_sleeps_pos exec (r2 + 1) 1 (by omega)
        simp [this]

/-- The loop's result is the outcome of its final attempt. -/
theorem runRetryLoop_result_last (exec : Nat → Option GoError) :
    ∀ (rem i : Nat), 1 ≤ rem →
    (runRetryLoop exec i rem).1 = exec (i + ((runRetryLoop exec i rem).2.1 - 1)) := by
  intro rem
  induction rem with
  | zero => intro i h; omega
  | succ r ih =>
    intro i _
    unfold runRetryLoop
    by_cases h : ((exec i).isNone || !isTransientError (exec i)) = true
    · rw [if_pos h]
      simp
    · rw [if_neg h]
      cases r with
      | zero => simp
      | succ r2 =>
        have hres := ih (i + 1) (by omega)
        have hpos := runRetryLoop_attempts_pos exec (i + 1) (r2 + 1) (by omega)
        simp only
        rw [hres]
        congr 1
        omega

/-- C7 (confirmed). The three fatal error kinds are classified
non-transient and stop the outer retry loop immediately after the attempt
that produced them (every non-final attempt's error was transient); a
run of transient errors re-runs the whole execute-plan call up to the
configured maximum number of attempts; each retry is preceded by exactly
one fixed-interval sleep; and the returned error is the final attempt's. -/
theorem retry_policy (exec : Nat → Option GoError) (maxRetries : Nat)
    (hmax : 1 ≤ maxRetries) :
    (isTransientError (some GoError.auth) = false ∧
     isTransientError (some GoError.forbidden) = false ∧
     isTransientError (some GoError.notFound) = false) ∧
    (runRetries exec maxRetries).2.1 ≤ maxRetries ∧
    (∀ j, j + 1 < (runRetries exec maxRetries).2.1 →
        isTransientError (exec j) = true) ∧
    ((∀ j, isTransientError (exec j) = true) →
        (runRetries exec maxRetries).2.1 = maxRetries) ∧
    (isTransientError (exec 0) = false →
        runRetries exec maxRetries = (exec 0, 1, 0)) ∧
    (runRetries exec maxRetries).2.2 = (runRetries exec maxRetries).2.1 - 1 ∧
    (runRetries exec maxRetries).1 =
      exec ((runRetries exec maxRetries).2.1 - 1) := by
  refine ⟨⟨rfl, rfl, rfl⟩, ?_, ?_, ?_, ?_, ?_, ?_⟩
  · exact runRetryLoop_attempts_le exec maxRetries 0
  · intro j hj
    have := runRetryLoop_prefix_transient exec maxRetries 0 j hj
    simpa using this
  · intro h
    exact runRetryLoop_all_transient exec maxRetries 0 (fun j => by simpa using h j)
  · intro h
    have := runRetryLoop_stop exec 0 maxRetries hmax h
    simpa [runRetries] using this
  · exact runRetries_sleeps exec maxRetries
  · have := runRetryLoop_result_last exec maxRetries 0 hmax
    simpa [runRetries] using this

/-- Closed instance of C7: a fatal authentication error on the first
attempt stops the loop after one attempt with no sleep. -/
theorem retry_policy_witness :
    runRetries (fun _ => some GoError.auth) 3 = (some GoError.auth, 1, 0) :=
  (retry_policy (fun _ => some GoError.auth) 3 (by decide)).2.2.2.2.1 (by decide)

/-- A terminal-state or 100%-download event is always admitted by the
throttle. -/
theorem sendProgressAdmits_final (last : Option Nat) (e : PEvent)
    (hfin : e.state = ProgressState.complete ∨ e.state = ProgressState.verified ∨
      (e.state = ProgressState.downloading ∧ e.current = e.total)) :
    sendProgressAdmits last e = true := by
  unfold sendProgressAdmits
  cases last with
  | none => rfl
  | some t =>
    dsimp only
    rw [if_neg]
    intro hcond
    rcases hcond with ⟨hnf, hnd, _⟩
    rcases hfin with h | h | h
    · exact hnf (Or.inl h)
    · exact hnf (Or.inr h)
    · exact hnd h

/-- C8 (confirmed). The throttle suppresses an event only when it is
neither a terminal state nor a 100%-download event, a previous update for
the file exists, and less than the 100 ms interval elapsed since it; a
terminal-state or 100%-download event is never dropped, either at a single
step or anywhere along a run of the reporter. -/
theorem sendProgress_throttle_policy :
    (∀ (last : Option Nat) (e : PEvent),
      sendProgressAdmits last e = false →
        (e.state ≠ ProgressState.complete ∧ e.state ≠ ProgressState.verified) ∧
        ¬ (e.state = ProgressState.downloading ∧ e.current = e.total) ∧
        ∃ t, last = some t ∧ e.now - t < throttleIntervalMs) ∧
    (∀ (last : Option Nat) (e : PEvent),
      (e.state = ProgressState.complete ∨ e.state = ProgressState.verified ∨
        (e.state = ProgressState.downloading ∧ e.current = e.total)) →
      sendProgressAdmits last e = true) ∧
    (∀ (init : Option Nat) (evs : List PEvent) (e : PEvent), e ∈ evs →
      (e.state = ProgressState.complete ∨ e.state = ProgressState.verified ∨
        (e.state = ProgressState.downloading ∧ e.current = e.total)) →
      e ∈ (runReporter init evs).1) := by
  refine ⟨?_, sendProgressAdmits_final, ?_⟩
  · intro last e h
    unfold sendProgressAdmits at h
    cases last with
    | none => cases h
    | some t =>
      dsimp only at h
      by_cases hcond : ¬ (e.state = ProgressState.complete ∨
          e.state = ProgressState.verified) ∧
          ¬ (e.state = ProgressState.downloading ∧ e.current = e.total) ∧
          e.now - t < throttleIntervalMs
      · rcases hcond with ⟨hnf, hnd, hlt⟩
        push_neg at hnf
        exact ⟨hnf, hnd, t, rfl, hlt⟩
      · rw [if_neg hcond] at h
        cases h
  · intro init evs
    induction evs generalizing init with
    | nil => intro e he; cases he
    | cons a rest ih =>
      intro e he hfin
      rcases List.mem_cons.mp he with rfl | hmem
      · unfold runReporter
        rw [if_pos (sendProgressAdmits_final init e hfin)]
        exact List.mem_cons_self _ _
      · unfold runReporter
        by_cases hadm : sendProgressAdmits init a = true
        · rw [if_pos hadm]
          exact List.mem_cons_of_mem _ (ih (some a.now) e hmem hfin)
        · rw [if_neg hadm]
          exact ih init e hmem hfin

/-- Closed instance of C8: a terminal event arriving immediately after a
previous update is still admitted by the reporter. -/
theorem throttle_policy_witness : evDone ∈ (runReporter (some 0) [evDone]).1 :=
  sendProgress_throttle_policy.2.2 (some 0) [evDone] evDone (by decide) (Or.inl rfl)

/-- Every reported cumulative total is at least the counter's starting
value. -/
theorem cumTotals_ge (writes : List Nat) :
    ∀ (acc r : Nat), r ∈ cumTotals writes acc → acc ≤ r := by
  induction writes with
  | nil => intro acc r h; simp [cumTotals] at h
  | cons n rest ih =>
    intro acc r h
    unfold cumTotals at h
    by_cases hn : 0 < n
    · rw [if_pos hn] at h
      rcases List.mem_cons.mp h with rfl | h
      · omega
      · have := ih (acc + n) r h
        omega
    · rw [if_neg hn] at h
      exact ih acc r h

/-- The reported cumulative totals are non-decreasing. -/
theorem cumTotals_chain (writes : List Nat) :
    ∀ acc, List.Chain' (fun a b => a ≤ b) (cumTotals writes acc) := by
  induction writes with
  | nil => intro acc; simp [cumTotals]
  | cons n rest ih =>
    intro acc
    unfold cumTotals
    by_cases hn : 0 < n
    · rw [if_pos hn]
      refine List.chain'_cons'.mpr ⟨?_, ih (acc + n)⟩
      intro y hy
      exact cumTotals_ge rest (acc + n) y (List.mem_of_mem_head? hy)
    · rw [if_neg hn]
      exact ih acc

/-- Every reported cumulative total is bounded by the starting value plus
the bytes written. -/
theorem cumTotals_le (writes : List Nat) :
    ∀ (acc r : Nat), r ∈ cumTotals writes acc → r ≤ acc + writes.sum := by
  induction writes with
  | nil => intro acc r h; simp [cumTotals] at h
  | cons n rest ih =>
    intro acc r h
    unfold cumTotals at h
    rw [List.sum_cons]
    by_cases hn : 0 < n
    · rw [if_pos hn] at h
      rcases List.mem_cons.mp h with rfl | h
      · have : (0 : Nat) ≤ rest.sum := Nat.zero_le _
        omega
      · have := ih (acc + n) r h
        omega
    · rw [if_neg hn] at h
      have := ih acc r h
      omega

/-- C9 (confirmed). For a single file, the cumulative byte totals reported
by the shared-counter progress writer form a non-decreasing sequence, and
when the bytes written in total do not exceed the file's size (as the range
slices guarantee), no reported total exceeds that size. -/
theorem progress_totals_monotone_bounded (writes : List Nat) (total : Nat) :
    List.Chain' (fun a b => a ≤ b) (cumTotals writes 0) ∧
    (writes.sum ≤ total → ∀ r ∈ cumTotals writes 0, r ≤ total) := by
  refine ⟨cumTotals_chain writes 0, ?_⟩
  intro hsum r hr
  have := cumTotals_le writes 0 r hr
  omega

/-- Closed instance of C9: the totals reported for the write sequence
2, 0, 3 against a 5-byte file stay within the file size. -/
theorem progress_totals_witness : (5 : Nat) ≤ 5 :=
  (progress_totals_monotone_bounded [2, 0, 3] 5).2 (by decide) 5 (by decide)

end HFGet
